import Mathlib

/-!
Verification of the Paillier cryptosystem core in `src/ui/lib/paillier.ts`.

The TypeScript functions are shallowly embedded over `Int` (JavaScript
`BigInt` is arbitrary-precision and signed).  On `BigInt`, JavaScript `%`
is the truncated remainder and `/` is truncated division, so the embedding
uses `Int.tmod` and `Int.tdiv` wherever the source writes `%` and `/`.
Functions that `throw` are embedded as `Option`-returning functions, with
`none` standing for the thrown exception.  `encrypt` draws a random
blinding factor `r` by rejection sampling; it is embedded as a function of
the accepted draw `r`, together with the predicate `validBlindingFactor`
characterising exactly the draws the loop can accept.
-/

namespace Paillier

/-- Loop body of `modPow`: the `while (exp > 0)` loop with state
`(base, exp, result)`.  Each iteration multiplies `result` by `base` when
the current exponent bit is set, halves `exp` and squares `base`. -/
def modPowLoop (base exp md result : Int) : Int :=
  if h : 0 < exp then
    modPowLoop ((base * base).tmod md) (exp.tdiv 2) md
      (if exp.tmod 2 = 1 then (result * base).tmod md else result)
  else result
termination_by exp.toNat
decreasing_by
  rw [Int.tdiv_eq_ediv (by omega) (by omega)]
  omega

/-- Embedding of `modPow(base, exp, mod)`: first reduces `base = base % mod`, then runs
the square-and-multiply loop with `result = 1`. -/
def modPow (base exp md : Int) : Int :=
  modPowLoop (base.tmod md) exp md 1

/-- Return record of `extendedGcd`: `{ gcd, x, y }`. -/
structure ExtendedGcdResult where
  gcd : Int
  x : Int
  y : Int
deriving Repr, DecidableEq

/-- Embedding of `extendedGcd(a, b)`: recursive extended Euclidean algorithm returning
`gcd` together with Bézout coefficients `x`, `y` for `a·x + b·y = gcd`. -/
def extendedGcd (a b : Int) : ExtendedGcdResult :=
  if h : a = 0 then ⟨b, 0, 1⟩
  else
    let r := extendedGcd (b.tmod a) a
    ⟨r.gcd, r.y - (b.tdiv a) * r.x, r.x⟩
termination_by a.natAbs
decreasing_by
  have ha : 0 < a.natAbs := by
    rcases Int.natAbs_eq a with h1 | h1 <;> omega
  have hm : (b.tmod a).natAbs = b.natAbs % a.natAbs := by
    rcases b with m | m <;> rcases a with k | k <;>
      simp [Int.tmod, Int.natAbs_ofNat] <;> rfl
  rw [hm]
  exact Nat.mod_lt _ ha

/-- Embedding of `modInverse(a, mod)`: throws (`none`) when the extended Euclidean gcd
of `a % mod` and `mod` is not 1, otherwise normalises the Bézout
coefficient into `[0, mod)`. -/
def modInverse (a md : Int) : Option Int :=
  let r := extendedGcd (a.tmod md) md
  if r.gcd ≠ 1 then none
  else some (((r.x.tmod md) + md).tmod md)

/-- Embedding of `gcd(a, b)`: the iterative Euclidean `while (b !== 0n)` loop. -/
def gcd (a b : Int) : Int :=
  if h : b = 0 then a
  else gcd b (a.tmod b)
termination_by b.natAbs
decreasing_by
  have hb : 0 < b.natAbs := by
    rcases Int.natAbs_eq b with h1 | h1 <;> omega
  have hm : (a.tmod b).natAbs = a.natAbs % b.natAbs := by
    rcases a with m | m <;> rcases b with k | k <;>
      simp [Int.tmod, Int.natAbs_ofNat] <;> rfl
  rw [hm]
  exact Nat.mod_lt _ hb

/-- Embedding of `lcm(a, b) = (a * b) / gcd(a, b)` with truncated division. -/
def lcm (a b : Int) : Int :=
  (a * b).tdiv (gcd a b)

/-- Embedding of `L(x) = (x - 1) / n` with truncated division. -/
def L (x n : Int) : Int :=
  (x - 1).tdiv n

/-- Structure `PaillierPublicKey { n, nSquared, g }`. -/
structure PaillierPublicKey where
  n : Int
  nSquared : Int
  g : Int
deriving Repr, DecidableEq

/-- Structure `PaillierPrivateKey { lambda, mu, n, nSquared }`. -/
structure PaillierPrivateKey where
  lambda : Int
  mu : Int
  n : Int
  nSquared : Int
deriving Repr, DecidableEq

/-- Structure `KeyGenerationSteps`: audit record of all intermediate key values. -/
structure KeyGenerationSteps where
  p : Int
  q : Int
  n : Int
  nSquared : Int
  g : Int
  pMinus1 : Int
  qMinus1 : Int
  lambda : Int
  gLambda : Int
  lOfGLambda : Int
  mu : Int
deriving Repr, DecidableEq

/-- Structure `PaillierKeyPair { publicKey, privateKey, steps }`. -/
structure PaillierKeyPair where
  publicKey : PaillierPublicKey
  privateKey : PaillierPrivateKey
  steps : KeyGenerationSteps
deriving Repr, DecidableEq

/-- Embedding of `isValidPaillierPair(p, q)`: rejects `p = q`, otherwise checks
`gcd(p·q, lcm(p−1, q−1)) = 1`. -/
def isValidPaillierPair (p q : Int) : Bool :=
  if p = q then false
  else
    let n := p * q
    let lambda := lcm (p - 1) (q - 1)
    gcd n lambda == 1

/-- Embedding of `generateKeyPair(p, q)`: derives `n`, `n²`, `g = n+1`,
`λ = lcm(p−1, q−1)`, throws (`none`) when `gcd(n, λ) ≠ 1`, and otherwise
computes `μ = L(g^λ mod n²)⁻¹ mod n` (whose own failure would also be a
thrown exception, hence `none`). -/
def generateKeyPair (p q : Int) : Option PaillierKeyPair :=
  let n := p * q
  let nSquared := n * n
  let g := n + 1
  let pMinus1 := p - 1
  let qMinus1 := q - 1
  let lambda := lcm pMinus1 qMinus1
  if gcd n lambda ≠ 1 then none
  else
    let gLambda := modPow g lambda nSquared
    let lOfGLambda := L gLambda n
    match modInverse lOfGLambda n with
    | none => none
    | some mu =>
        some ⟨⟨n, nSquared, g⟩, ⟨lambda, mu, n, nSquared⟩,
          ⟨p, q, n, nSquared, g, pMinus1, qMinus1, lambda, gLambda, lOfGLambda, mu⟩⟩

/-- Structure `EncryptionResult { ciphertext, r }`. -/
structure EncryptionResult where
  ciphertext : Int
  r : Int
deriving Repr, DecidableEq

/-- The acceptance condition of `encrypt`'s rejection loop:
`randomBigInt(2n, n - 1n)` draws `r ∈ [2, n−1]`, re-drawn until
`gcd(r, n) = 1`. -/
def validBlindingFactor (r n : Int) : Prop :=
  2 ≤ r ∧ r ≤ n - 1 ∧ gcd r n = 1

/-- Embedding of `encrypt(message, publicKey)` at the blinding factor `r` the sampling
loop accepted: `c = (g^m mod n²)·(r^n mod n²) mod n²`. -/
def encrypt (message : Int) (publicKey : PaillierPublicKey) (r : Int) :
    EncryptionResult :=
  let gm := modPow publicKey.g message publicKey.nSquared
  let rn := modPow r publicKey.n publicKey.nSquared
  ⟨(gm * rn).tmod publicKey.nSquared, r⟩

/-- Structure `DecryptionSteps`: audit record of the decryption pipeline. -/
structure DecryptionSteps where
  ciphertext : Int
  lambda : Int
  nSquared : Int
  cLambda : Int
  n : Int
  lValue : Int
  mu : Int
  lTimesMu : Int
  message : Int
deriving Repr, DecidableEq

/-- Embedding of `decrypt(ciphertext, privateKey) = L(c^λ mod n²)·μ mod n`. -/
def decrypt (ciphertext : Int) (privateKey : PaillierPrivateKey) : Int :=
  let cLambda := modPow ciphertext privateKey.lambda privateKey.nSquared
  let lValue := L cLambda privateKey.n
  (lValue * privateKey.mu).tmod privateKey.n

/-- Embedding of `decryptWithSteps(ciphertext, privateKey)`: the same computation as
`decrypt`, returning every intermediate value. -/
def decryptWithSteps (ciphertext : Int) (privateKey : PaillierPrivateKey) :
    DecryptionSteps :=
  let cLambda := modPow ciphertext privateKey.lambda privateKey.nSquared
  let lValue := L cLambda privateKey.n
  let lTimesMu := lValue * privateKey.mu
  let message := lTimesMu.tmod privateKey.n
  ⟨ciphertext, privateKey.lambda, privateKey.nSquared, cLambda,
    privateKey.n, lValue, privateKey.mu, lTimesMu, message⟩

/-- Embedding of `homomorphicAdd(c1, c2, publicKey) = (c1 · c2) mod n²`. -/
def homomorphicAdd (c1 c2 : Int) (publicKey : PaillierPublicKey) : Int :=
  (c1 * c2).tmod publicKey.nSquared

/-- Embedding of `homomorphicMultiplyScalar(c, scalar, publicKey) = c^scalar mod n²`. -/
def homomorphicMultiplyScalar (c scalar : Int) (publicKey : PaillierPublicKey) :
    Int :=
  modPow c scalar publicKey.nSquared

/-- The key pair `generateKeyPair 3 5` returns: `n = 15`, `n² = 225`,
`g = 16`, `λ = lcm(2,4) = 4`, `g^λ mod n² = 61`, `L = 4`, `μ = 4`. -/
def KP35 : PaillierKeyPair :=
  ⟨⟨15, 225, 16⟩, ⟨4, 4, 15, 225⟩, ⟨3, 5, 15, 225, 16, 2, 4, 4, 61, 4, 4⟩⟩

/-- The key pair `generateKeyPair 3 3` returns (equal primes!): `n = 9`,
`n² = 81`, `g = 10`, `λ = lcm(2,2) = 2`, `g^λ mod n² = 19`, `L = 2`,
`μ = 5`. -/
def KP33 : PaillierKeyPair :=
  ⟨⟨9, 81, 10⟩, ⟨2, 5, 9, 81⟩, ⟨3, 3, 9, 81, 10, 2, 2, 2, 19, 2, 5⟩⟩

/-! ### Bridging lemmas between the embedded operations and Mathlib arithmetic -/

/-- Truncated remainder strictly shrinks `natAbs` of a nonzero divisor. -/
theorem natAbs_tmod_lt_natAbs (b a : Int) (h : a ≠ 0) :
    (b.tmod a).natAbs < a.natAbs := by
  have ha : 0 < a.natAbs := by
    rcases Int.natAbs_eq a with h1 | h1 <;> omega
  calc (b.tmod a).natAbs = b.natAbs % a.natAbs := by
        rcases b with m | m <;> rcases a with k | k <;>
          simp [Int.tmod, Int.natAbs_ofNat] <;> rfl
    _ < a.natAbs := Nat.mod_lt _ ha

/-- Truncated remainder of nonnegative operands is the Euclidean remainder. -/
theorem tmod_eq_emod_of_nonneg (a b : Int) (ha : 0 ≤ a) (hb : 0 ≤ b) :
    a.tmod b = a % b :=
  Int.tmod_eq_emod ha hb

/-- A Euclidean remainder is congruent to the dividend. -/
theorem emod_modEq (a n : Int) : a % n ≡ a [ZMOD n] :=
  Int.emod_emod_of_dvd a dvd_rfl

/-- Casting `Nat` remainders to `Int` truncated remainders. -/
theorem natCast_tmod (m n : ℕ) : ((m % n : ℕ) : Int) = ((m : Int)).tmod (n : Int) := by
  rw [Int.tmod_eq_emod (by positivity) (by positivity)]
  exact Int.natCast_mod m n

/-- The embedded Euclidean loop computes `Int.gcd` on nonnegative inputs. -/
theorem gcd_eq_intGcd : ∀ a b : Int, 0 ≤ a → 0 ≤ b → gcd a b = ↑(Int.gcd a b) := by
  intro a b
  induction a, b using gcd.induct with
  | case1 a =>
      intro ha _
      rw [gcd]
      simp [Int.natAbs_of_nonneg ha]
  | case2 a b hb IH =>
      intro ha hb'
      rw [gcd, dif_neg hb]
      rw [IH hb' (Int.tmod_nonneg b ha)]
      congr 1
      lift a to ℕ using ha with A
      lift b to ℕ using hb' with B
      rw [← natCast_tmod A B]
      simp only [Int.gcd_natCast_natCast]
      rw [Nat.gcd_comm B (A % B), ← Nat.gcd_rec B A, Nat.gcd_comm B A]

/-- The embedded `lcm` computes `Int.lcm` on nonnegative inputs. -/
theorem lcm_eq_intLcm (a b : Int) (ha : 0 ≤ a) (hb : 0 ≤ b) :
    lcm a b = ↑(Int.lcm a b) := by
  rw [lcm, gcd_eq_intGcd a b ha hb]
  lift a to ℕ using ha with A
  lift b to ℕ using hb with B
  rcases Nat.eq_zero_or_pos (Nat.gcd A B) with hg | hg
  · rw [Nat.eq_zero_of_gcd_eq_zero_left hg, Nat.eq_zero_of_gcd_eq_zero_right hg]
    simp [Int.lcm]
  · have hcast : ((A : Int)) * (B : Int) = ((A * B : ℕ) : Int) := by push_cast; ring
    rw [hcast, Int.gcd_natCast_natCast, ← Int.ofNat_tdiv (A * B) (A.gcd B)]
    rw [← Nat.gcd_mul_lcm A B, Nat.mul_div_cancel_left _ hg]
    rfl

/-- The square-and-multiply loop computes `result · base ^ exp` modulo `md`,
provided `base`, `exp` are nonnegative and `result` is a reduced residue. -/
theorem modPowLoop_eq : ∀ base exp md result : Int, 0 ≤ base → 0 ≤ exp →
    0 ≤ result → result < md →
    modPowLoop base exp md result = (result * base ^ exp.toNat) % md := by
  intro base exp md result
  induction base, exp, md, result using modPowLoop.induct with
  | case1 base exp md result hpos IH =>
      intro hb he hr hrm
      have hmd : 0 < md := by omega
      simp only [dite_eq_ite] at IH
      rw [modPowLoop, dif_pos hpos]
      rw [IH (Int.tmod_nonneg md (by positivity))
        (Int.tdiv_nonneg he (by norm_num))
        (by split
            · exact Int.tmod_nonneg md (by positivity)
            · exact hr)
        (by split
            · exact Int.tmod_lt_of_pos _ hmd
            · exact hrm)]
      have hbb : (base * base).tmod md = (base * base) % md :=
        tmod_eq_emod_of_nonneg _ _ (by positivity) (by omega)
      have hrb : (result * base).tmod md = (result * base) % md :=
        tmod_eq_emod_of_nonneg _ _ (by positivity) (by omega)
      have htd : exp.tdiv 2 = exp / 2 := Int.tdiv_eq_ediv he (by norm_num)
      have htm : exp.tmod 2 = exp % 2 := Int.tmod_eq_emod he (by norm_num)
      by_cases hodd : exp.tmod 2 = 1
      · rw [if_pos hodd, hrb, hbb]
        have hE : exp.toNat = 2 * (exp.tdiv 2).toNat + 1 := by
          rw [htm] at hodd; rw [htd]; omega
        rw [hE]
        have step1 : result * base % md * ((base * base) % md) ^
              (exp.tdiv 2).toNat ≡
            result * base * (base * base) ^ (exp.tdiv 2).toNat [ZMOD md] :=
          Int.ModEq.mul (emod_modEq _ md) ((emod_modEq _ md).pow _)
        have step2 : result * base * (base * base) ^ (exp.tdiv 2).toNat =
            result * base ^ (2 * (exp.tdiv 2).toNat + 1) := by ring
        exact step1.trans (by rw [step2])
      · rw [if_neg hodd, hbb]
        have hE : exp.toNat = 2 * (exp.tdiv 2).toNat := by
          rw [htm] at hodd; rw [htd]; omega
        rw [hE]
        have step1 : result * ((base * base) % md) ^ (exp.tdiv 2).toNat ≡
            result * (base * base) ^ (exp.tdiv 2).toNat [ZMOD md] :=
          Int.ModEq.mul_left result ((emod_modEq _ md).pow _)
        have step2 : result * (base * base) ^ (exp.tdiv 2).toNat =
            result * base ^ (2 * (exp.tdiv 2).toNat) := by ring
        exact step1.trans (by rw [step2])
  | case2 base exp md result hpos =>
      intro hb he hr hrm
      rw [modPowLoop, dif_neg hpos]
      have hE : exp.toNat = 0 := by omega
      rw [hE, pow_zero, mul_one, Int.emod_eq_of_lt hr hrm]

/-- Evaluation of `modPow` to the canonical residue `base ^ exp % md` for
nonnegative base and exponent and modulus at least 2. -/
theorem modPow_eq (base exp md : Int) (hb : 0 ≤ base) (he : 0 ≤ exp)
    (hmd : 2 ≤ md) : modPow base exp md = (base ^ exp.toNat) % md := by
  rw [modPow, modPowLoop_eq _ _ _ _ (Int.tmod_nonneg md hb) he (by norm_num)
    (by omega), one_mul, tmod_eq_emod_of_nonneg _ _ hb (by omega)]
  exact (emod_modEq base md).pow exp.toNat

/-- Range of `modPow` output: a reduced residue when the modulus is at least 2
and base and exponent are nonnegative. -/
theorem modPow_range (base exp md : Int) (hb : 0 ≤ base) (he : 0 ≤ exp)
    (hmd : 2 ≤ md) : 0 ≤ modPow base exp md ∧ modPow base exp md < md := by
  rw [modPow_eq base exp md hb he hmd]
  exact ⟨Int.emod_nonneg _ (by omega), Int.emod_lt_of_pos _ (by omega)⟩

/-- With modulus 1 and a positive exponent the loop always returns 0: the
last iteration has exponent 1, whose odd step reduces the result mod 1. -/
theorem modPowLoop_one : ∀ base exp md result : Int, md = 1 → 0 < exp →
    modPowLoop base exp md result = 0 := by
  intro base exp md result
  induction base, exp, md, result using modPowLoop.induct with
  | case1 base exp md result hpos IH =>
      intro hmd _
      simp only [dite_eq_ite] at IH
      rw [modPowLoop, dif_pos hpos]
      by_cases h2 : 0 < exp.tdiv 2
      · exact IH hmd h2
      · have htd : exp.tdiv 2 = exp / 2 :=
          Int.tdiv_eq_ediv (by omega) (by norm_num)
        have hexp1 : exp = 1 := by rw [htd] at h2; omega
        subst hexp1; subst hmd
        rw [show ((1 : Int).tdiv 2) = 0 by decide,
          if_pos (show ((1 : Int).tmod 2) = 1 by decide),
          modPowLoop, dif_neg (by omega)]
        exact Int.tmod_one _
  | case2 base exp md result hpos =>
      intro _ h
      omega

/-- The extended Euclidean algorithm returns the gcd together with Bézout
coefficients, on nonnegative inputs. -/
theorem extendedGcd_spec : ∀ a b : Int, 0 ≤ a → 0 ≤ b →
    (extendedGcd a b).gcd = ↑(Int.gcd a b) ∧
    a * (extendedGcd a b).x + b * (extendedGcd a b).y = ↑(Int.gcd a b) := by
  intro a b
  induction a, b using extendedGcd.induct with
  | case1 b =>
      intro _ hb
      rw [extendedGcd]
      simp [Int.natAbs_of_nonneg hb]
  | case2 a b ha IH =>
      intro ha' hb'
      obtain ⟨IH1, IH2⟩ := IH (Int.tmod_nonneg a hb') ha'
      have hgg : Int.gcd (b.tmod a) a = Int.gcd a b := by
        lift a to ℕ using ha' with A
        lift b to ℕ using hb' with B
        rw [← natCast_tmod B A]
        simp only [Int.gcd_natCast_natCast]
        rw [← Nat.gcd_rec A B]
      rw [extendedGcd, dif_neg ha]
      refine ⟨by rw [IH1, hgg], ?_⟩
      rw [hgg] at IH2
      have hsub : b.tmod a = b - a * (b.tdiv a) := by
        have := Int.tmod_add_tdiv b a
        linarith
      simp only
      linear_combination IH2 - (extendedGcd (b.tmod a) a).x * hsub

/-- Behaviour of `modInverse` on nonnegative `a` and positive modulus:
it returns `none` exactly when `gcd(a, md) ≠ 1`, and any returned value is
the canonical modular inverse of `a`. -/
theorem modInverse_spec (a md : Int) (ha : 0 ≤ a) (hm : 1 ≤ md) :
    (modInverse a md = none ↔ Int.gcd a md ≠ 1) ∧
    ∀ x, modInverse a md = some x →
      0 ≤ x ∧ x < md ∧ a * x ≡ 1 [ZMOD md] := by
  have hta : 0 ≤ a.tmod md := Int.tmod_nonneg md ha
  obtain ⟨hg, hbez⟩ := extendedGcd_spec (a.tmod md) md hta (by omega)
  have hgcd : Int.gcd (a.tmod md) md = Int.gcd a md := by
    lift a to ℕ using ha with A
    lift md to ℕ using (by omega : (0:Int) ≤ md) with M
    rw [← natCast_tmod A M]
    simp only [Int.gcd_natCast_natCast]
    rw [← Nat.gcd_rec M A, Nat.gcd_comm M A]
  rw [hgcd] at hg hbez
  constructor
  · rw [modInverse]
    by_cases h1 : (extendedGcd (a.tmod md) md).gcd = 1
    · rw [if_neg (by simpa using h1)]
      simp only [reduceCtorEq, false_iff, not_not]
      rw [h1] at hg
      exact_mod_cast hg.symm
    · rw [if_pos (by simpa using h1)]
      simp only [true_iff]
      intro hc
      exact h1 (by rw [hg, hc]; norm_num)
  · intro x hx
    rw [modInverse] at hx
    by_cases h1 : (extendedGcd (a.tmod md) md).gcd = 1
    · rw [if_neg (by simpa using h1)] at hx
      set w := (extendedGcd (a.tmod md) md).x with hw
      injection hx with hx
      have habs := natAbs_tmod_lt_natAbs w md (by omega)
      have hin : -md < w.tmod md ∧ w.tmod md < md := by omega
      have hx0 : 0 ≤ w.tmod md + md := by omega
      have hlt : w.tmod md + md < 2 * md := by omega
      rw [← hx]
      have hxe : (w.tmod md + md).tmod md = (w.tmod md + md) % md :=
        tmod_eq_emod_of_nonneg _ _ hx0 (by omega)
      refine ⟨by rw [hxe]; exact Int.emod_nonneg _ (by omega),
        by rw [hxe]; exact Int.emod_lt_of_pos _ (by omega), ?_⟩
      have hcong1 : (w.tmod md + md).tmod md ≡ w [ZMOD md] := by
        rw [hxe]
        calc (w.tmod md + md) % md ≡ w.tmod md + md [ZMOD md] :=
              emod_modEq _ md
          _ ≡ w.tmod md + 0 [ZMOD md] := Int.ModEq.add_left _ (Int.modEq_zero_iff_dvd.mpr dvd_rfl)
          _ = w.tmod md := by ring
          _ ≡ w [ZMOD md] := by
              have := Int.tmod_add_tdiv w md
              rw [Int.modEq_iff_dvd]
              exact ⟨w.tdiv md, by linarith⟩
      have hbez1 : a.tmod md * w ≡ ↑(Int.gcd a md) [ZMOD md] := by
        rw [Int.modEq_iff_dvd]
        exact ⟨(extendedGcd (a.tmod md) md).y, by rw [hw] at hbez; linarith⟩
      have hG1 : (↑(Int.gcd a md) : ℤ) = 1 := by rw [← hg, h1]
      calc a * ((w.tmod md + md).tmod md) ≡ a * w [ZMOD md] :=
            Int.ModEq.mul_left a hcong1
        _ ≡ a.tmod md * w [ZMOD md] := by
            refine Int.ModEq.mul_right w ?_
            have := Int.tmod_add_tdiv a md
            rw [Int.modEq_iff_dvd]
            exact ⟨-(a.tdiv md), by linarith⟩
        _ ≡ ↑(Int.gcd a md) [ZMOD md] := hbez1
        _ = (1 : ℤ) := hG1
    · rw [if_pos (by simpa using h1)] at hx
      exact absurd hx (by simp)

/-- Uniqueness of the modular inverse: any reduced residue satisfying the
inverse equation is the value `modInverse` returns. -/
theorem modInverse_eq_some (a md x : Int) (ha : 0 ≤ a) (hm : 1 ≤ md)
    (hg : Int.gcd a md = 1) (hx0 : 0 ≤ x) (hx1 : x < md)
    (hax : a * x ≡ 1 [ZMOD md]) : modInverse a md = some x := by
  rcases h : modInverse a md with _ | y
  · exact absurd hg ((modInverse_spec a md ha hm).1.mp h)
  · obtain ⟨hy0, hy1, hy⟩ := (modInverse_spec a md ha hm).2 y h
    have hcan : a * x ≡ a * y [ZMOD md] := hax.trans hy.symm
    have hxy : x ≡ y [ZMOD md] := by
      have := hcan.cancel_left_div_gcd (by omega : (0:Int) < md)
      rwa [Int.gcd_comm md a, hg, Nat.cast_one, Int.ediv_one] at this
    have : x = y := by
      have hx' : x % md = x := Int.emod_eq_of_lt hx0 hx1
      have hy' : y % md = y := Int.emod_eq_of_lt hy0 hy1
      rw [← hx', ← hy']
      exact hxy
    rw [this]

/-! ### Number-theoretic core of Paillier correctness -/

/-- Binomial congruence: `(1 + t·n)^k ≡ 1 + k·t·n (mod n²)`. -/
theorem one_add_mul_pow_modEq (t n : Int) :
    ∀ k : ℕ, (1 + t * n) ^ k ≡ 1 + (k : Int) * t * n [ZMOD n * n] := by
  intro k
  induction k with
  | zero => simp
  | succ k IH =>
      have h1 : (1 + t * n) ^ (k + 1) = (1 + t * n) ^ k * (1 + t * n) := by
        rw [pow_succ]
      rw [h1]
      have h2 : (1 + (k : Int) * t * n) * (1 + t * n) ≡
          1 + ((k : ℕ) + 1 : Int) * t * n [ZMOD n * n] := by
        rw [Int.modEq_iff_dvd]
        exact ⟨-((k : Int) * t * t), by ring⟩
      calc (1 + t * n) ^ k * (1 + t * n) ≡
            (1 + (k : Int) * t * n) * (1 + t * n) [ZMOD n * n] :=
            IH.mul_right _
        _ ≡ 1 + ((k : ℕ) + 1 : Int) * t * n [ZMOD n * n] := h2
        _ = 1 + (((k + 1 : ℕ) : Int)) * t * n := by push_cast; ring

/-- Canonical residue of `1 + M·n` modulo `n²` for nonnegative `M`. -/
theorem one_add_mul_emod (M n : Int) (hM : 0 ≤ M) (hn : 2 ≤ n) :
    (1 + M * n) % (n * n) = 1 + (M % n) * n := by
  have hdiv : M = n * (M / n) + M % n := (Int.ediv_add_emod M n).symm
  have h0 : 0 ≤ M % n := Int.emod_nonneg _ (by omega)
  have h1 : M % n < n := Int.emod_lt_of_pos _ (by omega)
  have hsplit : 1 + M * n = (1 + (M % n) * n) + (n * n) * (M / n) := by
    calc 1 + M * n = 1 + (n * (M / n) + M % n) * n := by rw [← hdiv]
      _ = (1 + (M % n) * n) + (n * n) * (M / n) := by ring
  rw [hsplit, Int.add_mul_emod_self_left]
  exact Int.emod_eq_of_lt (by nlinarith) (by nlinarith)

/-- Canonical residue of `(n+1)^k` modulo `n²`. -/
theorem pow_one_add_n_emod (n : Int) (k : ℕ) (hn : 2 ≤ n) :
    ((n + 1) ^ k) % (n * n) = 1 + ((k : Int) % n) * n := by
  have hb : (n + 1) ^ k ≡ 1 + (k : Int) * n [ZMOD n * n] := by
    have h := one_add_mul_pow_modEq 1 n k
    have e1 : 1 + 1 * n = n + 1 := by ring
    have e2 : 1 + (k : Int) * 1 * n = 1 + (k : Int) * n := by ring
    rwa [e1, e2] at h
  calc ((n + 1) ^ k) % (n * n) = (1 + (k : Int) * n) % (n * n) := hb
    _ = 1 + ((k : Int) % n) * n :=
        one_add_mul_emod _ n (by positivity) hn

/-- The `L` function inverts `x ↦ 1 + x·n`. -/
theorem L_one_add (s n : Int) (hn : n ≠ 0) : L (1 + s * n) n = s := by
  rw [L, show 1 + s * n - 1 = s * n by ring, Int.mul_tdiv_cancel s hn]

/-- Invariance of `Int.gcd` under reducing the first argument modulo the
second, for nonnegative arguments. -/
theorem intGcd_emod_left (a n : Int) (ha : 0 ≤ a) (hn : 1 ≤ n) :
    Int.gcd (a % n) n = Int.gcd a n := by
  lift a to ℕ using ha with A
  lift n to ℕ using (by omega : (0:Int) ≤ n) with N
  rw [← Int.natCast_mod A N]
  simp only [Int.gcd_natCast_natCast]
  rw [← Nat.gcd_rec N A, Nat.gcd_comm N A]

/-- Field-level description of a successfully generated key pair:
`n = p·q`, `n² = n·n`, `g = n+1`, `λ = lcm(p−1, q−1)` with
`gcd(n, λ) = 1`, and `μ` is the reduced modular inverse of `λ` mod `n`. -/
theorem generateKeyPair_spec (p q : Int) (hp2 : 2 ≤ p) (hq2 : 2 ≤ q)
    (kp : PaillierKeyPair) (h : generateKeyPair p q = some kp) :
    kp.publicKey.n = p * q ∧
    kp.publicKey.nSquared = (p * q) * (p * q) ∧
    kp.publicKey.g = p * q + 1 ∧
    kp.privateKey.lambda = ↑(Int.lcm (p - 1) (q - 1)) ∧
    kp.privateKey.mu = kp.steps.mu ∧
    kp.privateKey.n = p * q ∧
    kp.privateKey.nSquared = (p * q) * (p * q) ∧
    Int.gcd (p * q) ↑(Int.lcm (p - 1) (q - 1)) = 1 ∧
    0 ≤ kp.privateKey.mu ∧ kp.privateKey.mu < p * q ∧
    (↑(Int.lcm (p - 1) (q - 1)) : Int) * kp.privateKey.mu ≡ 1 [ZMOD p * q] := by
  have hn2 : 2 ≤ p * q := by nlinarith
  have hn0 : (0 : Int) ≤ p * q := by omega
  have hΛcast : (0 : Int) ≤ ↑(Int.lcm (p - 1) (q - 1)) := by positivity
  have hΛ : lcm (p - 1) (q - 1) = ↑(Int.lcm (p - 1) (q - 1)) :=
    lcm_eq_intLcm _ _ (by omega) (by omega)
  have hgcdb : gcd (p * q) ↑(Int.lcm (p - 1) (q - 1)) =
      ↑(Int.gcd (p * q) ↑(Int.lcm (p - 1) (q - 1))) :=
    gcd_eq_intGcd _ _ hn0 hΛcast
  simp only [generateKeyPair, hΛ, hgcdb] at h
  by_cases hg : Int.gcd (p * q) (↑(Int.lcm (p - 1) (q - 1)) : Int) = 1
  · rw [if_neg (by rw [hg]; simp)] at h
    have hmp : modPow (p * q + 1) (↑(Int.lcm (p - 1) (q - 1))) ((p * q) * (p * q)) =
        1 + ((↑(Int.lcm (p - 1) (q - 1)) : Int) % (p * q)) * (p * q) := by
      rw [modPow_eq _ _ _ (by omega) hΛcast (by nlinarith)]
      rw [Int.toNat_natCast]
      exact pow_one_add_n_emod (p * q) _ hn2
    rw [hmp, L_one_add _ _ (by omega)] at h
    set s := (↑(Int.lcm (p - 1) (q - 1)) : Int) % (p * q) with hs
    have hs0 : 0 ≤ s := Int.emod_nonneg _ (by omega)
    have hsgcd : Int.gcd s (p * q) = 1 := by
      rw [hs, intGcd_emod_left _ _ hΛcast (by omega), Int.gcd_comm]
      exact hg
    rcases hmi : modInverse s (p * q) with _ | μ
    · rw [hmi] at h
      exact absurd h (by simp)
    · rw [hmi] at h
      obtain ⟨hμ0, hμ1, hμc⟩ := (modInverse_spec s (p * q) hs0 (by omega)).2 μ hmi
      injection h with h
      subst h
      refine ⟨rfl, rfl, rfl, rfl, rfl, rfl, rfl, hg, hμ0, hμ1, ?_⟩
      calc (↑(Int.lcm (p - 1) (q - 1)) : Int) * μ ≡ s * μ [ZMOD p * q] :=
            Int.ModEq.mul_right μ (emod_modEq _ _).symm
        _ ≡ 1 [ZMOD p * q] := hμc
  · rw [if_pos (by simpa using fun hc => hg (by exact_mod_cast hc))] at h
    exact absurd h (by simp)

/-- Carmichael-style exponent lemma over `ℕ`: for distinct primes `P`, `Q`
and `R` coprime to `P·Q`, `R ^ lcm(P−1, Q−1) ≡ 1 (mod P·Q)`. -/
theorem pow_lcm_modEq_one (P Q R : ℕ) (hP : P.Prime) (hQ : Q.Prime)
    (hne : P ≠ Q) (hco : R.Coprime (P * Q)) :
    R ^ Nat.lcm (P - 1) (Q - 1) ≡ 1 [MOD P * Q] := by
  have hmod : ∀ S : ℕ, S.Prime → R.Coprime S → (S - 1) ∣ Nat.lcm (P - 1) (Q - 1) →
      R ^ Nat.lcm (P - 1) (Q - 1) ≡ 1 [MOD S] := by
    intro S hS hcoS hdvd
    obtain ⟨c, hc⟩ := hdvd
    have h1 : R ^ (S - 1) ≡ 1 [MOD S] := by
      rw [← Nat.totient_prime hS]
      exact Nat.ModEq.pow_totient hcoS
    calc R ^ Nat.lcm (P - 1) (Q - 1) = (R ^ (S - 1)) ^ c := by
          rw [hc, pow_mul]
      _ ≡ 1 ^ c [MOD S] := h1.pow c
      _ = 1 := one_pow c
  have hcoP : R.Coprime P := Nat.Coprime.coprime_dvd_right ⟨Q, rfl⟩ hco
  have hcoQ : R.Coprime Q := Nat.Coprime.coprime_dvd_right ⟨P, mul_comm P Q⟩ hco
  exact (Nat.modEq_and_modEq_iff_modEq_mul
    ((Nat.coprime_primes hP hQ).mpr hne)).mp
    ⟨hmod P hP hcoP (Nat.dvd_lcm_left _ _), hmod Q hQ hcoQ (Nat.dvd_lcm_right _ _)⟩

/-- Transfer of the Carmichael lemma to the `Int` embedding. -/
theorem int_pow_lcm_modEq_one (p q r : Int) (hp2 : 2 ≤ p) (hq2 : 2 ≤ q)
    (hpp : Prime p) (hqp : Prime q) (hne : p ≠ q) (hr : 0 ≤ r)
    (hco : Int.gcd r (p * q) = 1) :
    r ^ (Int.lcm (p - 1) (q - 1)) ≡ 1 [ZMOD p * q] := by
  lift p to ℕ using (by omega : (0:Int) ≤ p) with P
  lift q to ℕ using (by omega : (0:Int) ≤ q) with Q
  lift r to ℕ using hr with R
  have hPp : P.Prime := by
    rw [Int.prime_iff_natAbs_prime] at hpp
    simpa using hpp
  have hQp : Q.Prime := by
    rw [Int.prime_iff_natAbs_prime] at hqp
    simpa using hqp
  have hPQ : P ≠ Q := fun hc => hne (by exact_mod_cast hc)
  have hcoN : R.Coprime (P * Q) := by
    have : ((P * Q : ℕ) : Int) = (P : Int) * (Q : Int) := by push_cast; ring
    rw [Nat.Coprime, ← Int.gcd_natCast_natCast, this, hco]
  have hlcm : Int.lcm ((P : Int) - 1) ((Q : Int) - 1) =
      Nat.lcm (P - 1) (Q - 1) := by
    have e1 : ((P : Int) - 1) = ((P - 1 : ℕ) : Int) := by
      have : 1 ≤ P := by omega
      push_cast [this]; ring
    have e2 : ((Q : Int) - 1) = ((Q - 1 : ℕ) : Int) := by
      have : 1 ≤ Q := by omega
      push_cast [this]; ring
    rw [e1, e2]
    simp [Int.lcm, Int.natAbs_ofNat]
  rw [hlcm]
  have hN := pow_lcm_modEq_one P Q R hPp hQp hPQ hcoN
  have : ((R ^ Nat.lcm (P - 1) (Q - 1) : ℕ) : Int) ≡
      ((1 : ℕ) : Int) [ZMOD ((P * Q : ℕ) : Int)] :=
    Int.natCast_modEq_iff.mpr hN
  push_cast at this
  exact this

/-- Core decryption correctness: decrypting any nonnegative value congruent
to `(n+1)^m · r^n` modulo `n²` recovers `m`, for a valid key built from
distinct primes `p`, `q` and an inverse pair `(λ, μ)`. -/
theorem decrypt_core (p q m r c μ : Int)
    (hp2 : 2 ≤ p) (hq2 : 2 ≤ q) (hpp : Prime p) (hqp : Prime q) (hne : p ≠ q)
    (hm0 : 0 ≤ m) (hm1 : m < p * q)
    (hr0 : 0 ≤ r) (hrco : Int.gcd r (p * q) = 1)
    (hμ0 : 0 ≤ μ)
    (hμ : (↑(Int.lcm (p - 1) (q - 1)) : Int) * μ ≡ 1 [ZMOD p * q])
    (hc0 : 0 ≤ c)
    (hc : c ≡ (p * q + 1) ^ m.toNat * r ^ (p * q).toNat
      [ZMOD (p * q) * (p * q)]) :
    decrypt c ⟨↑(Int.lcm (p - 1) (q - 1)), μ, p * q, (p * q) * (p * q)⟩ = m := by
  set n := p * q with hn
  set Λ := Int.lcm (p - 1) (q - 1) with hΛdef
  have hn2 : 2 ≤ n := by nlinarith
  have hnn2 : 2 ≤ n * n := by nlinarith
  -- Step 1: r ^ (n·λ) ≡ 1 (mod n²)
  have hrl : r ^ Λ ≡ 1 [ZMOD n] :=
    int_pow_lcm_modEq_one p q r hp2 hq2 hpp hqp hne hr0 hrco
  obtain ⟨t, ht⟩ := (Int.modEq_iff_dvd.mp hrl)
  have hrΛ : r ^ Λ = 1 + (-t) * n := by
    have hneg : (-t) * n = -(n * t) := by ring
    rw [hneg]
    linarith
  have hrn : r ^ (n.toNat * Λ) ≡ 1 [ZMOD n * n] := by
    have h1 : r ^ (n.toNat * Λ) = (r ^ Λ) ^ n.toNat := by
      rw [← pow_mul, Nat.mul_comm]
    rw [h1, hrΛ]
    calc (1 + (-t) * n) ^ n.toNat ≡
          1 + (n.toNat : Int) * (-t) * n [ZMOD n * n] :=
          one_add_mul_pow_modEq (-t) n n.toNat
      _ ≡ 1 [ZMOD n * n] := by
          rw [Int.modEq_iff_dvd]
          refine ⟨t, ?_⟩
          have hcn : ((n.toNat : Int)) = n := Int.toNat_of_nonneg (by omega)
          rw [hcn]; ring
  -- Step 2: c ^ λ ≡ 1 + (m·λ)·n (mod n²)
  have hcl : c ^ Λ ≡ 1 + (m * ↑Λ) * n [ZMOD n * n] := by
    have h1 : c ^ Λ ≡ ((n + 1) ^ m.toNat * r ^ n.toNat) ^ Λ [ZMOD n * n] :=
      hc.pow Λ
    have h2 : ((n + 1) ^ m.toNat * r ^ n.toNat) ^ Λ =
        (n + 1) ^ (m.toNat * Λ) * r ^ (n.toNat * Λ) := by
      rw [mul_pow, ← pow_mul, ← pow_mul]
    have h3 : (n + 1) ^ (m.toNat * Λ) ≡
        1 + ((m.toNat * Λ : ℕ) : Int) * n [ZMOD n * n] := by
      have := one_add_mul_pow_modEq 1 n (m.toNat * Λ)
      have e1 : 1 + 1 * n = n + 1 := by ring
      have e2 : 1 + ((m.toNat * Λ : ℕ) : Int) * 1 * n =
          1 + ((m.toNat * Λ : ℕ) : Int) * n := by ring
      rwa [e1, e2] at this
    have hcast : ((m.toNat * Λ : ℕ) : Int) = m * ↑Λ := by
      push_cast
      rw [Int.toNat_of_nonneg hm0]
    calc c ^ Λ ≡ (n + 1) ^ (m.toNat * Λ) * r ^ (n.toNat * Λ) [ZMOD n * n] := by
          rw [← h2]; exact h1
      _ ≡ (1 + (m * ↑Λ) * n) * 1 [ZMOD n * n] := by
          refine Int.ModEq.mul ?_ hrn
          rw [← hcast]; exact h3
      _ = 1 + (m * ↑Λ) * n := by ring
  -- Step 3: evaluate the decryption pipeline
  have hM0 : 0 ≤ m * ↑Λ := by positivity
  have hres : c ^ Λ % (n * n) = 1 + ((m * ↑Λ) % n) * n := by
    calc c ^ Λ % (n * n) = (1 + (m * ↑Λ) * n) % (n * n) := hcl
      _ = 1 + ((m * ↑Λ) % n) * n := one_add_mul_emod _ n hM0 hn2
  simp only [decrypt]
  have hmp : modPow c (↑Λ) (n * n) = 1 + ((m * ↑Λ) % n) * n := by
    rw [modPow_eq _ _ _ hc0 (by positivity) hnn2, Int.toNat_natCast]
    exact hres
  rw [hmp, L_one_add _ _ (by omega)]
  have hs0 : 0 ≤ (m * ↑Λ) % n := Int.emod_nonneg _ (by omega)
  rw [tmod_eq_emod_of_nonneg _ _ (by positivity) (by omega)]
  have hfin : ((m * ↑Λ) % n) * μ ≡ m [ZMOD n] := by
    calc ((m * ↑Λ) % n) * μ ≡ (m * ↑Λ) * μ [ZMOD n] :=
          Int.ModEq.mul_right μ (emod_modEq _ _)
      _ = m * ((↑Λ : Int) * μ) := by ring
      _ ≡ m * 1 [ZMOD n] := Int.ModEq.mul_left m hμ
      _ = m := by ring
  calc ((m * ↑Λ) % n) * μ % n = m % n := hfin
    _ = m := Int.emod_eq_of_lt hm0 hm1

/-- The loop preserves nonnegativity of the accumulator for nonnegative
base and positive modulus (any exponent). -/
theorem modPowLoop_nonneg : ∀ base exp md result : Int, 0 ≤ base →
    0 ≤ result → 1 ≤ md → 0 ≤ modPowLoop base exp md result := by
  intro base exp md result
  induction base, exp, md, result using modPowLoop.induct with
  | case1 base exp md result hpos IH =>
      intro hb hr hmd
      simp only [dite_eq_ite] at IH
      rw [modPowLoop, dif_pos hpos]
      refine IH (Int.tmod_nonneg md (by positivity)) ?_ hmd
      split
      · exact Int.tmod_nonneg md (by positivity)
      · exact hr
  | case2 base exp md result hpos =>
      intro hb hr hmd
      rw [modPowLoop, dif_neg hpos]
      exact hr

/-- Nonnegativity of `modPow` output for nonnegative base and positive
modulus, whatever the exponent. -/
theorem modPow_nonneg (base exp md : Int) (hb : 0 ≤ base) (hmd : 1 ≤ md) :
    0 ≤ modPow base exp md :=
  modPowLoop_nonneg _ exp md 1 (Int.tmod_nonneg md hb) (by norm_num) hmd

/-- The ciphertext produced by `encrypt` under the key
`⟨n, n·n, n+1⟩` is nonnegative and congruent to `(n+1)^m · r^n mod n²`. -/
theorem encrypt_congr (n m r : Int) (hn2 : 2 ≤ n) (hm0 : 0 ≤ m)
    (hr0 : 0 ≤ r) :
    0 ≤ (encrypt m ⟨n, n * n, n + 1⟩ r).ciphertext ∧
    (encrypt m ⟨n, n * n, n + 1⟩ r).ciphertext ≡
      (n + 1) ^ m.toNat * r ^ n.toNat [ZMOD n * n] := by
  simp only [encrypt]
  rw [modPow_eq _ _ _ (by omega) hm0 (by nlinarith),
      modPow_eq _ _ _ hr0 (by omega) (by nlinarith)]
  have hnn : (0 : Int) < n * n := by nlinarith
  have hA : 0 ≤ (n + 1) ^ m.toNat % (n * n) := Int.emod_nonneg _ (by omega)
  have hB : 0 ≤ r ^ n.toNat % (n * n) := Int.emod_nonneg _ (by omega)
  rw [tmod_eq_emod_of_nonneg _ _ (by positivity) (by omega)]
  refine ⟨Int.emod_nonneg _ (by omega), ?_⟩
  calc ((n + 1) ^ m.toNat % (n * n)) * (r ^ n.toNat % (n * n)) % (n * n)
      = (n + 1) ^ m.toNat * r ^ n.toNat % (n * n) := (Int.mul_emod _ _ _).symm
    _ ≡ (n + 1) ^ m.toNat * r ^ n.toNat [ZMOD n * n] := emod_modEq _ _

/-- Concrete evaluation: `generateKeyPair 3 5` succeeds and returns
exactly the key pair `KP35`. -/
theorem generateKeyPair_3_5 : generateKeyPair 3 5 = some KP35 := by
  have hA : lcm (2 : Int) 4 = 4 := by
    rw [lcm_eq_intLcm 2 4 (by norm_num) (by norm_num)]
    decide
  have hB : gcd (15 : Int) 4 = 1 := by
    rw [gcd_eq_intGcd 15 4 (by norm_num) (by norm_num)]
    decide
  have hC : modPow (16 : Int) 4 225 = 61 := by
    rw [modPow_eq 16 4 225 (by norm_num) (by norm_num) (by norm_num)]
    decide
  have hL : L (61 : Int) 15 = 4 := by decide
  have hD : modInverse (4 : Int) 15 = some 4 :=
    modInverse_eq_some 4 15 4 (by norm_num) (by norm_num) (by decide)
      (by norm_num) (by norm_num) (by decide)
  simp only [generateKeyPair]
  norm_num
  rw [hA, hB]
  norm_num
  rw [hC, hL, hD]
  decide

/-- Concrete evaluation: `generateKeyPair 3 3` — equal primes — also
succeeds, returning exactly the key pair `KP33`. -/
theorem generateKeyPair_3_3 : generateKeyPair 3 3 = some KP33 := by
  have hA : lcm (2 : Int) 2 = 2 := by
    rw [lcm_eq_intLcm 2 2 (by norm_num) (by norm_num)]
    decide
  have hB : gcd (9 : Int) 2 = 1 := by
    rw [gcd_eq_intGcd 9 2 (by norm_num) (by norm_num)]
    decide
  have hC : modPow (10 : Int) 2 81 = 19 := by
    rw [modPow_eq 10 2 81 (by norm_num) (by norm_num) (by norm_num)]
    decide
  have hL : L (19 : Int) 9 = 2 := by decide
  have hD : modInverse (2 : Int) 9 = some 5 :=
    modInverse_eq_some 2 9 5 (by norm_num) (by norm_num) (by decide)
      (by norm_num) (by norm_num) (by decide)
  simp only [generateKeyPair]
  norm_num
  rw [hA, hB]
  norm_num
  rw [hC, hL, hD]
  decide

/-! ### Claim theorems -/

/-- Claim C1 (confirmed): Round-trip correctness — for every prime pair
`(p, q)` with `p ≠ q` on which `generateKeyPair` succeeds, every message
`m ∈ [0, n)` and every blinding factor `r ∈ [2, n−1]` with `gcd(r, n) = 1`
that the sampling loop in `encrypt` may draw,
`decrypt(encrypt(m, publicKey).ciphertext, privateKey) = m`. -/
theorem roundTrip_decrypt_encrypt (p q : Int) (kp : PaillierKeyPair)
    (m r : Int)
    (hpp : Prime p) (hqp : Prime q) (hp2 : 2 ≤ p) (hq2 : 2 ≤ q) (hne : p ≠ q)
    (hgen : generateKeyPair p q = some kp)
    (hm0 : 0 ≤ m) (hm1 : m < kp.publicKey.n)
    (hr : validBlindingFactor r kp.publicKey.n) :
    decrypt (encrypt m kp.publicKey r).ciphertext kp.privateKey = m := by
  obtain ⟨h1, h2, h3, h4, h5, h6, h7, hgcd, hμ0, hμ1, hμc⟩ :=
    generateKeyPair_spec p q hp2 hq2 kp hgen
  obtain ⟨pub, priv, st⟩ := kp
  obtain ⟨n', ns', g'⟩ := pub
  obtain ⟨lam', mu', n2', ns2'⟩ := priv
  dsimp only at h1 h2 h3 h4 h5 h6 h7 hm1 hr hμ0 hμ1 hμc ⊢
  subst h1; subst h2; subst h3; subst h4; subst h6; subst h7
  obtain ⟨hr2, hrn, hrg⟩ := hr
  have hn2 : 2 ≤ p * q := by nlinarith
  have hrg' : Int.gcd r (p * q) = 1 := by
    rw [gcd_eq_intGcd r (p * q) (by omega) (by omega)] at hrg
    exact_mod_cast hrg
  obtain ⟨hc0, hcc⟩ := encrypt_congr (p * q) m r hn2 hm0 (by omega)
  exact decrypt_core p q m r _ mu' hp2 hq2 hpp hqp hne hm0 hm1 (by omega)
    hrg' hμ0 hμc hc0 hcc

/-- Witness for C1 at `p = 3`, `q = 5`, `m = 7`, `r = 2`. -/
theorem roundTrip_decrypt_encrypt_witness :
    decrypt (encrypt 7 KP35.publicKey 2).ciphertext KP35.privateKey = 7 :=
  roundTrip_decrypt_encrypt 3 5 KP35 7 2 (by norm_num) (by norm_num)
    (by norm_num) (by norm_num) (by norm_num) generateKeyPair_3_5
    (by norm_num) (by decide)
    ⟨by decide, by decide, by
      show gcd 2 15 = 1
      rw [gcd_eq_intGcd 2 15 (by norm_num) (by norm_num)]
      decide⟩

/-- Claim C2 (confirmed): Additive homomorphism — for every valid key pair,
messages `m1, m2 ∈ [0, n)` with `m1 + m2 < n` and any blinding factors the
two `encrypt` calls may draw, decrypting the `homomorphicAdd` of the two
ciphertexts yields `m1 + m2`. -/
theorem homomorphicAdd_decrypt_sum (p q : Int) (kp : PaillierKeyPair)
    (m1 m2 r1 r2 : Int)
    (hpp : Prime p) (hqp : Prime q) (hp2 : 2 ≤ p) (hq2 : 2 ≤ q) (hne : p ≠ q)
    (hgen : generateKeyPair p q = some kp)
    (hm10 : 0 ≤ m1) (hm20 : 0 ≤ m2)
    (hm1lt : m1 < kp.publicKey.n) (hm2lt : m2 < kp.publicKey.n)
    (hsum : m1 + m2 < kp.publicKey.n)
    (hr1 : validBlindingFactor r1 kp.publicKey.n)
    (hr2 : validBlindingFactor r2 kp.publicKey.n) :
    decrypt (homomorphicAdd (encrypt m1 kp.publicKey r1).ciphertext
      (encrypt m2 kp.publicKey r2).ciphertext kp.publicKey) kp.privateKey
      = m1 + m2 := by
  obtain ⟨h1, h2, h3, h4, h5, h6, h7, hgcd, hμ0, hμ1, hμc⟩ :=
    generateKeyPair_spec p q hp2 hq2 kp hgen
  obtain ⟨pub, priv, st⟩ := kp
  obtain ⟨n', ns', g'⟩ := pub
  obtain ⟨lam', mu', n2', ns2'⟩ := priv
  dsimp only at h1 h2 h3 h4 h5 h6 h7 hm1lt hm2lt hsum hr1 hr2 hμ0 hμ1 hμc ⊢
  subst h1; subst h2; subst h3; subst h4; subst h6; subst h7
  obtain ⟨hr12, hr1n, hr1g⟩ := hr1
  obtain ⟨hr22, hr2n, hr2g⟩ := hr2
  have hn2 : 2 ≤ p * q := by nlinarith
  have hr1g' : Int.gcd r1 (p * q) = 1 := by
    rw [gcd_eq_intGcd r1 (p * q) (by omega) (by omega)] at hr1g
    exact_mod_cast hr1g
  have hr2g' : Int.gcd r2 (p * q) = 1 := by
    rw [gcd_eq_intGcd r2 (p * q) (by omega) (by omega)] at hr2g
    exact_mod_cast hr2g
  have hrrg : Int.gcd (r1 * r2) (p * q) = 1 := by
    have : (r1 * r2).natAbs.gcd (p * q).natAbs =
        (r1.natAbs * r2.natAbs).gcd (p * q).natAbs := by rw [Int.natAbs_mul]
    exact this.trans (Nat.Coprime.mul hr1g' hr2g')
  obtain ⟨hc10, hc1c⟩ := encrypt_congr (p * q) m1 r1 hn2 hm10 (by omega)
  obtain ⟨hc20, hc2c⟩ := encrypt_congr (p * q) m2 r2 hn2 hm20 (by omega)
  set N := p * q with hN
  set A := (encrypt m1 ⟨N, N * N, N + 1⟩ r1).ciphertext with hA
  set B := (encrypt m2 ⟨N, N * N, N + 1⟩ r2).ciphertext with hB
  have hadd : homomorphicAdd A B ⟨N, N * N, N + 1⟩ = (A * B) % (N * N) := by
    rw [homomorphicAdd]
    exact tmod_eq_emod_of_nonneg _ _ (by positivity) (by positivity)
  have hab0 : 0 ≤ (A * B) % (N * N) :=
    Int.emod_nonneg _ (by positivity)
  have habc : (A * B) % (N * N) ≡
      (N + 1) ^ (m1 + m2).toNat * (r1 * r2) ^ N.toNat [ZMOD N * N] := by
    calc (A * B) % (N * N) ≡ A * B [ZMOD N * N] := emod_modEq _ _
      _ ≡ ((N + 1) ^ m1.toNat * r1 ^ N.toNat) *
          ((N + 1) ^ m2.toNat * r2 ^ N.toNat) [ZMOD N * N] :=
          Int.ModEq.mul hc1c hc2c
      _ = (N + 1) ^ (m1 + m2).toNat * (r1 * r2) ^ N.toNat := by
          rw [Int.toNat_add hm10 hm20, pow_add, mul_pow]
          ring
  rw [hadd]
  exact decrypt_core p q (m1 + m2) (r1 * r2) _ mu' hp2 hq2 hpp hqp hne
    (by omega) hsum (by positivity) hrrg hμ0 hμc hab0 habc

/-- Witness for C2 at `p = 3`, `q = 5`, `m1 = 3`, `m2 = 4`, `r1 = 2`,
`r2 = 4`. -/
theorem homomorphicAdd_decrypt_sum_witness :
    decrypt (homomorphicAdd (encrypt 3 KP35.publicKey 2).ciphertext
      (encrypt 4 KP35.publicKey 4).ciphertext KP35.publicKey)
      KP35.privateKey = 3 + 4 :=
  homomorphicAdd_decrypt_sum 3 5 KP35 3 4 2 4 (by norm_num) (by norm_num)
    (by norm_num) (by norm_num) (by norm_num) generateKeyPair_3_5
    (by norm_num) (by norm_num) (by decide) (by decide) (by decide)
    ⟨by decide, by decide, by
      show gcd 2 15 = 1
      rw [gcd_eq_intGcd 2 15 (by norm_num) (by norm_num)]
      decide⟩
    ⟨by decide, by decide, by
      show gcd 4 15 = 1
      rw [gcd_eq_intGcd 4 15 (by norm_num) (by norm_num)]
      decide⟩

/-- Claim C3 (code bug): `generateKeyPair(3, 3)` — an equal prime pair —
does **not** fail: it returns a full key pair, because `generateKeyPair`
never checks `p = q` (only `gcd(n, λ) = 1`, and `gcd(9, 2) = 1`), while
the repository's own `isValidPaillierPair(3, 3)` is `false` and the spec
requires an invalid-prime-pair failure. -/
theorem generateKeyPair_equal_primes_returns_keypair :
    generateKeyPair 3 3 = some KP33 ∧ isValidPaillierPair 3 3 = false :=
  ⟨generateKeyPair_3_3, by decide⟩

/-- Claim C4 (confirmed): on every successful `generateKeyPair(p, q)` with
`p`, `q` prime, the returned private key has `λ = lcm(p−1, q−1)`,
`n = p·q`, and `μ` is the reduced modular inverse of `λ` modulo `n`:
`0 ≤ μ < n` and `λ·μ ≡ 1 (mod n)`. -/
theorem mu_is_modular_inverse_of_lambda (p q : Int) (kp : PaillierKeyPair)
    (hpp : Prime p) (hqp : Prime q) (hp2 : 2 ≤ p) (hq2 : 2 ≤ q)
    (hgen : generateKeyPair p q = some kp) :
    kp.privateKey.lambda = ↑(Int.lcm (p - 1) (q - 1)) ∧
    kp.privateKey.n = p * q ∧
    0 ≤ kp.privateKey.mu ∧ kp.privateKey.mu < p * q ∧
    kp.privateKey.lambda * kp.privateKey.mu ≡ 1 [ZMOD p * q] := by
  obtain ⟨_, _, _, h4, _, h6, _, _, hμ0, hμ1, hμc⟩ :=
    generateKeyPair_spec p q hp2 hq2 kp hgen
  exact ⟨h4, h6, hμ0, hμ1, by rw [h4]; exact hμc⟩

/-- Witness for C4 at `p = 3`, `q = 5`. -/
theorem mu_is_modular_inverse_of_lambda_witness :
    KP35.privateKey.lambda = ↑(Int.lcm (3 - 1) (5 - 1)) ∧
    KP35.privateKey.n = 3 * 5 ∧
    0 ≤ KP35.privateKey.mu ∧ KP35.privateKey.mu < 3 * 5 ∧
    KP35.privateKey.lambda * KP35.privateKey.mu ≡ 1 [ZMOD 3 * 5] :=
  mu_is_modular_inverse_of_lambda 3 5 KP35 (by norm_num) (by norm_num)
    (by norm_num) (by norm_num) generateKeyPair_3_5

/-- Claim C5 (confirmed): for every ciphertext and every private key, the
fast-path `decrypt` and the step-trace `decryptWithSteps` return the
identical message. -/
theorem decrypt_eq_decryptWithSteps_message :
    ∀ (c : Int) (priv : PaillierPrivateKey),
      decrypt c priv = (decryptWithSteps c priv).message :=
  fun _ _ => rfl

/-- Claim C6 counterexample: at `modulus = 1` the claim fails — the code
returns `1`, but `1 mod 1 = 0`. -/
theorem modPow_zero_modulus_one_counterexample :
    modPow 5 0 1 = 1 ∧ (1 : Int) % 1 = 0 ∧ modPow 5 0 1 ≠ 1 % 1 := by
  have h : modPow (5 : Int) 0 1 = 1 := by
    rw [modPow, modPowLoop]
    norm_num
  exact ⟨h, by decide, by rw [h]; decide⟩

/-- Claim C6 (corrected): for every base and every modulus ≥ 1,
`modPow(base, 0, modulus)` returns `1` — which equals `1 mod modulus`
whenever `modulus ≥ 2`, but not at `modulus = 1`. -/
theorem modPow_zero_exponent_eq_one (base md : Int) (hmd : 1 ≤ md) :
    modPow base 0 md = 1 := by
  rw [modPow, modPowLoop]
  norm_num

/-- Witness for the amended C6 at `base = 9`, `modulus = 7`. -/
theorem modPow_zero_exponent_eq_one_witness :
    (1 : Int) ≤ 7 ∧ modPow 9 0 7 = 1 :=
  ⟨by norm_num, modPow_zero_exponent_eq_one 9 7 (by norm_num)⟩

/-- Claim C7 (confirmed): for every `a ≥ 0` and `modulus ≥ 1`,
`modInverse(a, modulus)` throws iff `gcd(a, modulus) ≠ 1`, and when
`gcd(a, modulus) = 1` it returns an `x ∈ [0, modulus)` with
`a·x ≡ 1 (mod modulus)`. -/
theorem modInverse_raises_iff_gcd_ne_one (a md : Int) (ha : 0 ≤ a)
    (hmd : 1 ≤ md) :
    (modInverse a md = none ↔ Int.gcd a md ≠ 1) ∧
    (Int.gcd a md = 1 → ∃ x, modInverse a md = some x ∧
      0 ≤ x ∧ x < md ∧ a * x ≡ 1 [ZMOD md]) := by
  obtain ⟨hnone, hsome⟩ := modInverse_spec a md ha hmd
  refine ⟨hnone, fun hg => ?_⟩
  rcases hmi : modInverse a md with _ | x
  · exact absurd hg (hnone.mp hmi)
  · obtain ⟨hx0, hx1, hxc⟩ := hsome x hmi
    exact ⟨x, rfl, hx0, hx1, hxc⟩

/-- Witness for C7 at `a = 4`, `modulus = 15`. -/
theorem modInverse_raises_iff_gcd_ne_one_witness :
    (modInverse 4 15 = none ↔ Int.gcd 4 15 ≠ 1) ∧
    (Int.gcd 4 15 = 1 → ∃ x, modInverse 4 15 = some x ∧
      0 ≤ x ∧ x < 15 ∧ 4 * x ≡ 1 [ZMOD 15]) :=
  modInverse_raises_iff_gcd_ne_one 4 15 (by norm_num) (by norm_num)

/-- Claim C8 counterexample: with the (degenerate but claim-admissible)
public key `n = 1`, `nSquared = 1`, `g = n + 1 = 2` and `scalar = 0`,
`homomorphicMultiplyScalar` returns `1`, which is not in `[0, n²) = [0, 1)`. -/
theorem homomorphicMultiplyScalar_range_counterexample :
    homomorphicMultiplyScalar 0 0 ⟨1, 1, 2⟩ = 1 ∧
    ¬ (homomorphicMultiplyScalar 0 0 ⟨1, 1, 2⟩ <
        (⟨1, 1, 2⟩ : PaillierPublicKey).nSquared) := by
  have h : homomorphicMultiplyScalar 0 0 (⟨1, 1, 2⟩ : PaillierPublicKey) = 1 := by
    rw [homomorphicMultiplyScalar, modPow, modPowLoop]
    norm_num
  exact ⟨h, by rw [h]; decide⟩

/-- Claim C8 (corrected): ciphertext range invariant — for every public key
with `nSquared ≥ 1` and `g ≥ 0`, every ciphertext returned by `encrypt`
(any message, any nonnegative drawn blinding factor) and by
`homomorphicAdd` (nonnegative input ciphertexts) lies in `[0, nSquared)`;
the same holds for `homomorphicMultiplyScalar` with `scalar ≥ 0` except in
the corner `nSquared = 1` and `scalar = 0`, where it returns `1`. -/
theorem ciphertext_range_invariant (pub : PaillierPublicKey)
    (hN : 1 ≤ pub.nSquared) (hg : 0 ≤ pub.g) :
    (∀ m r : Int, 0 ≤ r → 0 ≤ (encrypt m pub r).ciphertext ∧
      (encrypt m pub r).ciphertext < pub.nSquared) ∧
    (∀ c1 c2 : Int, 0 ≤ c1 → 0 ≤ c2 → 0 ≤ homomorphicAdd c1 c2 pub ∧
      homomorphicAdd c1 c2 pub < pub.nSquared) ∧
    (∀ c s : Int, 0 ≤ c → 0 ≤ s → (1 ≤ s ∨ 2 ≤ pub.nSquared) →
      0 ≤ homomorphicMultiplyScalar c s pub ∧
      homomorphicMultiplyScalar c s pub < pub.nSquared) := by
  refine ⟨?_, ?_, ?_⟩
  · intro m r hr
    simp only [encrypt]
    have hgm : 0 ≤ modPow pub.g m pub.nSquared := modPow_nonneg _ _ _ hg hN
    have hrn : 0 ≤ modPow r pub.n pub.nSquared := modPow_nonneg _ _ _ hr hN
    rw [tmod_eq_emod_of_nonneg _ _ (by positivity) (by omega)]
    exact ⟨Int.emod_nonneg _ (by omega), Int.emod_lt_of_pos _ (by omega)⟩
  · intro c1 c2 h1 h2
    rw [homomorphicAdd, tmod_eq_emod_of_nonneg _ _ (by positivity) (by omega)]
    exact ⟨Int.emod_nonneg _ (by omega), Int.emod_lt_of_pos _ (by omega)⟩
  · intro c s hc hs hd
    by_cases h2 : 2 ≤ pub.nSquared
    · rw [homomorphicMultiplyScalar]
      exact modPow_range c s pub.nSquared hc hs h2
    · have hN1 : pub.nSquared = 1 := by omega
      have hs1 : 0 < s := by rcases hd with h | h <;> omega
      rw [homomorphicMultiplyScalar, modPow,
        modPowLoop_one _ _ _ _ hN1 hs1]
      omega

/-- Witness for the amended C8 at the key of `generateKeyPair 3 5`. -/
theorem ciphertext_range_invariant_witness :
    0 ≤ (encrypt 7 ⟨15, 225, 16⟩ 2).ciphertext ∧
    (encrypt 7 ⟨15, 225, 16⟩ 2).ciphertext <
      (⟨15, 225, 16⟩ : PaillierPublicKey).nSquared :=
  (ciphertext_range_invariant ⟨15, 225, 16⟩ (by decide) (by decide)).1
    7 2 (by norm_num)

/-- Claim C9 (confirmed): `homomorphicAdd` under a fixed public key is
commutative, and folding `[c1, c2, c3]` in any of the 6 permutations
yields the identical aggregate ciphertext (nonnegative ciphertexts,
`nSquared ≥ 1`). -/
theorem homomorphicAdd_fold_order_independent (pub : PaillierPublicKey)
    (hN : 1 ≤ pub.nSquared) (c1 c2 c3 : Int)
    (h1 : 0 ≤ c1) (h2 : 0 ≤ c2) (h3 : 0 ≤ c3) :
    homomorphicAdd c1 c2 pub = homomorphicAdd c2 c1 pub ∧
    homomorphicAdd (homomorphicAdd c1 c2 pub) c3 pub =
      homomorphicAdd (homomorphicAdd c1 c3 pub) c2 pub ∧
    homomorphicAdd (homomorphicAdd c1 c2 pub) c3 pub =
      homomorphicAdd (homomorphicAdd c2 c1 pub) c3 pub ∧
    homomorphicAdd (homomorphicAdd c1 c2 pub) c3 pub =
      homomorphicAdd (homomorphicAdd c2 c3 pub) c1 pub ∧
    homomorphicAdd (homomorphicAdd c1 c2 pub) c3 pub =
      homomorphicAdd (homomorphicAdd c3 c1 pub) c2 pub ∧
    homomorphicAdd (homomorphicAdd c1 c2 pub) c3 pub =
      homomorphicAdd (homomorphicAdd c3 c2 pub) c1 pub := by
  have key : ∀ x y z : Int, 0 ≤ x → 0 ≤ y → 0 ≤ z →
      homomorphicAdd (homomorphicAdd x y pub) z pub =
        (x * y * z) % pub.nSquared := by
    intro x y z hx hy hz
    rw [homomorphicAdd, homomorphicAdd]
    have e1 : (x * y).tmod pub.nSquared = (x * y) % pub.nSquared :=
      tmod_eq_emod_of_nonneg _ _ (by positivity) (by omega)
    rw [e1]
    have hxy : 0 ≤ (x * y) % pub.nSquared := Int.emod_nonneg _ (by omega)
    have e2 : ((x * y) % pub.nSquared * z).tmod pub.nSquared =
        ((x * y) % pub.nSquared * z) % pub.nSquared :=
      tmod_eq_emod_of_nonneg _ _ (by positivity) (by omega)
    rw [e2]
    exact (emod_modEq (x * y) pub.nSquared).mul_right z
  refine ⟨by rw [homomorphicAdd, homomorphicAdd, mul_comm], ?_, ?_, ?_, ?_, ?_⟩
  · rw [key c1 c2 c3 h1 h2 h3, key c1 c3 c2 h1 h3 h2]
    congr 1
    ring
  · rw [key c1 c2 c3 h1 h2 h3, key c2 c1 c3 h2 h1 h3]
    congr 1
    ring
  · rw [key c1 c2 c3 h1 h2 h3, key c2 c3 c1 h2 h3 h1]
    congr 1
    ring
  · rw [key c1 c2 c3 h1 h2 h3, key c3 c1 c2 h3 h1 h2]
    congr 1
    ring
  · rw [key c1 c2 c3 h1 h2 h3, key c3 c2 c1 h3 h2 h1]
    congr 1
    ring

/-- Witness for C9 at the key of `generateKeyPair 3 5` and ciphertexts
`2, 3, 4`. -/
theorem homomorphicAdd_fold_order_independent_witness :
    homomorphicAdd 2 3 ⟨15, 225, 16⟩ = homomorphicAdd 3 2 ⟨15, 225, 16⟩ ∧
    homomorphicAdd (homomorphicAdd 2 3 ⟨15, 225, 16⟩) 4 ⟨15, 225, 16⟩ =
      homomorphicAdd (homomorphicAdd 2 4 ⟨15, 225, 16⟩) 3 ⟨15, 225, 16⟩ ∧
    homomorphicAdd (homomorphicAdd 2 3 ⟨15, 225, 16⟩) 4 ⟨15, 225, 16⟩ =
      homomorphicAdd (homomorphicAdd 3 2 ⟨15, 225, 16⟩) 4 ⟨15, 225, 16⟩ ∧
    homomorphicAdd (homomorphicAdd 2 3 ⟨15, 225, 16⟩) 4 ⟨15, 225, 16⟩ =
      homomorphicAdd (homomorphicAdd 3 4 ⟨15, 225, 16⟩) 2 ⟨15, 225, 16⟩ ∧
    homomorphicAdd (homomorphicAdd 2 3 ⟨15, 225, 16⟩) 4 ⟨15, 225, 16⟩ =
      homomorphicAdd (homomorphicAdd 4 2 ⟨15, 225, 16⟩) 3 ⟨15, 225, 16⟩ ∧
    homomorphicAdd (homomorphicAdd 2 3 ⟨15, 225, 16⟩) 4 ⟨15, 225, 16⟩ =
      homomorphicAdd (homomorphicAdd 4 3 ⟨15, 225, 16⟩) 2 ⟨15, 225, 16⟩ :=
  homomorphicAdd_fold_order_independent ⟨15, 225, 16⟩ (by decide) 2 3 4
    (by norm_num) (by norm_num) (by norm_num)

/-- Claim C10 (confirmed): the homomorphic combinators read only the
`nSquared` field of the public key — two keys agreeing on `nSquared`
produce identical results on all inputs, with no check relating
ciphertexts to the key. -/
theorem combinators_read_only_nSquared (k1 k2 : PaillierPublicKey)
    (h : k1.nSquared = k2.nSquared) (c1 c2 c s : Int) :
    homomorphicAdd c1 c2 k1 = homomorphicAdd c1 c2 k2 ∧
    homomorphicMultiplyScalar c s k1 = homomorphicMultiplyScalar c s k2 := by
  constructor
  · rw [homomorphicAdd, homomorphicAdd, h]
  · rw [homomorphicMultiplyScalar, homomorphicMultiplyScalar, h]

/-- Witness for C10: keys `⟨15, 225, 16⟩` and `⟨999, 225, 5⟩` share only
`nSquared`. -/
theorem combinators_read_only_nSquared_witness :
    homomorphicAdd 2 3 ⟨15, 225, 16⟩ = homomorphicAdd 2 3 ⟨999, 225, 5⟩ ∧
    homomorphicMultiplyScalar 4 5 ⟨15, 225, 16⟩ =
      homomorphicMultiplyScalar 4 5 ⟨999, 225, 5⟩ :=
  combinators_read_only_nSquared ⟨15, 225, 16⟩ ⟨999, 225, 5⟩ rfl 2 3 4 5

end Paillier
